import Mathlib

/-!
Shallow embedding of the `ml_tools` repository (kernels, normals, lin_alg,
flattening, autograd helpers) and proofs about it.  Arrays are modelled in
exact arithmetic: numeric array contents are real numbers, shapes are lists
of naturals, and NumPy's row-major flat storage is a Lean `List`.
-/

namespace MLTools

/-! ## flattening.py -/

/-- A dense n-dimensional array: its shape and its row-major flat contents.
NumPy guarantees `data.length = shape.prod`; we carry that as a hypothesis
where needed. -/
structure NDArray (α : Type) where
  shape : List Nat
  data : List α
  deriving DecidableEq, Repr

/-- `array_info = namedtuple('array_info', 'shape')`. -/
structure array_info where
  shape : List Nat
  deriving DecidableEq, Repr

/-- `extract_info(array)` returns `array_info(shape=array.shape)`. -/
def extract_info (a : NDArray α) : array_info :=
  ⟨a.shape⟩

/-- `np.reshape(flat, shape)`: for flat input of length `shape.prod` it
returns the array of that shape whose row-major contents are the input. -/
def np_reshape (flat : List α) (shape : List Nat) : NDArray α :=
  ⟨shape, flat⟩

/-- `np.concatenate(arrays)` on a list of flat vectors: their concatenation.
On an empty list NumPy raises `ValueError` ("need at least one array to
concatenate"), modelled as `none`. -/
def np_concatenate (arrays : List (List α)) : Option (List α) :=
  match arrays with
  | [] => none
  | _ => some arrays.flatten

/-- `flatten_and_summarise(**input_arrays)`: the keyword arguments arrive as
an ordered mapping with distinct names, modelled as a list of name/array
pairs.  Returns the `np.concatenate` of each array's row-major contents
(`y.reshape(-1)`) together with the ordered summaries; on the empty
collection the `np.concatenate` call raises `ValueError` (`none`). -/
def flatten_and_summarise (input_arrays : List (String × NDArray α)) :
    Option (List α × List (String × array_info)) :=
  (np_concatenate (input_arrays.map fun p => p.2.data)).map fun flattened =>
    (flattened, input_arrays.map fun p => (p.1, extract_info p.2))

/-- `reconstruct(flat_array, summaries, reshape_fun)`: peels off the first
summary, reshapes that many leading elements, and recurses on the rest of
the flat vector with the remaining summaries (the comprehension
`{x: y for x, y in summaries.items() if x != cur_name}`). -/
def reconstruct (flat_array : List α) (summaries : List (String × array_info))
    (reshape_fun : List α → List Nat → NDArray α) :
    List (String × NDArray α) :=
  match summaries with
  | [] => []
  | (cur_name, cur_summary) :: rest =>
    let cur_elements := cur_summary.shape.prod
    (cur_name, reshape_fun (flat_array.take cur_elements) cur_summary.shape) ::
      reconstruct (flat_array.drop cur_elements)
        (((cur_name, cur_summary) :: rest).filter
          (fun p => decide (p.1 ≠ cur_name)))
        reshape_fun
termination_by summaries.length
decreasing_by
  simp only [List.filter_cons, ne_eq, not_true_eq_false, decide_False,
    Bool.false_eq_true, if_false, List.length_cons]
  exact Nat.lt_succ_of_le (List.length_filter_le _ _)

/-- `reconstruct_np = partial(reconstruct, reshape_fun=np.reshape)`. -/
def reconstruct_np (flat_array : List α) (summaries : List (String × array_info)) :
    List (String × NDArray α) :=
  reconstruct flat_array summaries np_reshape

theorem reconstruct_nil (flat : List α)
    (reshape_fun : List α → List Nat → NDArray α) :
    reconstruct flat [] reshape_fun = [] := by
  rw [reconstruct]

theorem reconstruct_cons (flat : List α) (cur_name : String)
    (cur_summary : array_info) (rest : List (String × array_info))
    (reshape_fun : List α → List Nat → NDArray α) :
    reconstruct flat ((cur_name, cur_summary) :: rest) reshape_fun =
      (cur_name, reshape_fun (flat.take cur_summary.shape.prod)
        cur_summary.shape) ::
      reconstruct (flat.drop cur_summary.shape.prod)
        (((cur_name, cur_summary) :: rest).filter
          (fun p => decide (p.1 ≠ cur_name)))
        reshape_fun := by
  rw [reconstruct]

theorem reconstruct_flatten_aux {α : Type}
    (arrays : List (String × NDArray α))
    (hnodup : (arrays.map Prod.fst).Nodup)
    (hwf : ∀ p ∈ arrays, p.2.data.length = p.2.shape.prod) :
    reconstruct_np ((arrays.map fun p => p.2.data).flatten)
      (arrays.map fun p => (p.1, extract_info p.2)) = arrays := by
  induction arrays with
  | nil => simp [reconstruct_np, reconstruct_nil]
  | cons hd tl ih =>
    obtain ⟨name, a⟩ := hd
    have hlen : a.data.length = a.shape.prod := hwf (name, a) (by simp)
    have hnd : (name :: tl.map Prod.fst).Nodup := by
      rw [List.map_cons] at hnodup; exact hnodup
    obtain ⟨hnotmem, hndtl⟩ := List.nodup_cons.mp hnd
    simp only [List.map_cons, List.flatten_cons]
    rw [reconstruct_np, reconstruct_cons]
    have htake : ((a.data ++ (tl.map (fun p => p.2.data)).flatten).take
        (extract_info a).shape.prod) = a.data := by
      rw [extract_info, ← hlen]
      exact List.take_left _ _
    have hdrop : ((a.data ++ (tl.map (fun p => p.2.data)).flatten).drop
        (extract_info a).shape.prod) = (tl.map (fun p => p.2.data)).flatten := by
      rw [extract_info, ← hlen]
      exact List.drop_left _ _
    have hfilter : (((name, extract_info a) ::
          tl.map (fun p => (p.1, extract_info p.2))).filter
          (fun p => decide (p.1 ≠ name))) =
        tl.map (fun p => (p.1, extract_info p.2)) := by
      rw [List.filter_cons]
      simp only [ne_eq, not_true_eq_false, decide_False, Bool.false_eq_true,
        if_false]
      apply List.filter_eq_self.mpr
      intro p hp
      have hp1 : p.1 ∈ tl.map Prod.fst := by
        rcases List.mem_map.mp hp with ⟨q, hq, rfl⟩
        exact List.mem_map.mpr ⟨q, hq, rfl⟩
      simp only [ne_eq, decide_eq_true_eq]
      intro h
      exact hnotmem (h ▸ hp1)
    rw [htake, hdrop, hfilter]
    have hresh : np_reshape a.data (extract_info a).shape = a := by
      cases a; rfl
    rw [hresh]
    have ihx := ih hndtl (fun p hp => hwf p (List.mem_cons_of_mem _ hp))
    rw [reconstruct_np] at ihx
    rw [ihx]

/-- C1 as frozen is false at the empty collection: `flatten_and_summarise()`
raises `ValueError` (`np.concatenate` of an empty list of arrays), so no
flat vector and summaries are ever produced to reconstruct from. -/
theorem C1_counterexample :
    flatten_and_summarise ([] : List (String × NDArray Nat)) = none := rfl

/-- C1 amended: for every nonempty finite named collection of arrays
(distinct names, each array's flat data matching its shape),
`flatten_and_summarise` succeeds and `reconstruct` with the NumPy reshape
function on its flat vector and summaries returns exactly the original
name/array association; on the empty collection `flatten_and_summarise`
instead raises `ValueError`. -/
theorem C1_flatten_reconstruct_roundtrip {α : Type}
    (arrays : List (String × NDArray α)) (hne : arrays ≠ [])
    (hnodup : (arrays.map Prod.fst).Nodup)
    (hwf : ∀ p ∈ arrays, p.2.data.length = p.2.shape.prod) :
    ∃ out, flatten_and_summarise arrays = some out ∧
      reconstruct_np out.1 out.2 = arrays := by
  refine ⟨((arrays.map fun p => p.2.data).flatten,
    arrays.map fun p => (p.1, extract_info p.2)), ?_,
    reconstruct_flatten_aux arrays hnodup hwf⟩
  rw [flatten_and_summarise]
  obtain ⟨q, qs, rfl⟩ : ∃ q qs, arrays = q :: qs := by
    cases arrays with
    | nil => exact absurd rfl hne
    | cons q qs => exact ⟨q, qs, rfl⟩
  rfl

/-- Witness for C1's amended statement at a concrete two-array collection. -/
theorem C1_flatten_reconstruct_roundtrip_witness :
    (([("a", (⟨[2], [1, 2]⟩ : NDArray Nat)), ("b", ⟨[], [7]⟩)].map
        Prod.fst).Nodup ∧
      (∀ p ∈ [("a", (⟨[2], [1, 2]⟩ : NDArray Nat)), ("b", ⟨[], [7]⟩)],
        p.2.data.length = p.2.shape.prod) ∧
      [("a", (⟨[2], [1, 2]⟩ : NDArray Nat)), ("b", ⟨[], [7]⟩)] ≠ []) ∧
    ∃ out,
      flatten_and_summarise
        [("a", (⟨[2], [1, 2]⟩ : NDArray Nat)), ("b", ⟨[], [7]⟩)] =
        some out ∧
      reconstruct_np out.1 out.2 =
        [("a", (⟨[2], [1, 2]⟩ : NDArray Nat)), ("b", ⟨[], [7]⟩)] :=
  ⟨⟨by decide, by decide, by decide⟩,
    C1_flatten_reconstruct_roundtrip _ (by decide) (by decide) (by decide)⟩

/-! ## kernels.py -/

namespace Kernels

/-- `rbf_kernel_1d(x1, x2, alpha, rho)`:
`alpha**2 * np.exp(-sq_diff / (2 * rho**2))` on the outer difference grid. -/
noncomputable def rbf_kernel_1d {n1 n2 : ℕ} (x1 : Fin n1 → ℝ) (x2 : Fin n2 → ℝ)
    (alpha rho : ℝ) : Matrix (Fin n1) (Fin n2) ℝ :=
  Matrix.of fun i j => alpha ^ 2 * Real.exp (-(x1 i - x2 j) ^ 2 / (2 * rho ^ 2))

/-- `ard_rbf_kernel(x1, x2, lengthscales, alpha, jitter)` from `kernels.py`,
returning `(kern, lengthscale_grads, alpha_grad)`.  The diagonal assignment
`kern[np.diag_indices_from(kern)] = np.diag(kern) + jitter` requires `kern`
to be square (`np.diag_indices_from` raises `ValueError` otherwise), so both
inputs have `n` rows here; the shape control flow is modelled separately by
`ard_rbf_kernel_shape_check`. -/
noncomputable def ard_rbf_kernel {n d : ℕ} (x1 x2 : Matrix (Fin n) (Fin d) ℝ)
    (lengthscales : Fin d → ℝ) (alpha jitter : ℝ) :
    Matrix (Fin n) (Fin n) ℝ × (Fin n → Fin n → Fin d → ℝ) ×
      Matrix (Fin n) (Fin n) ℝ :=
  let sq_differences : Fin n → Fin n → Fin d → ℝ :=
    fun i j k => (x1 i k - x2 j k) ^ 2
  let inv_sq_lengthscales : Fin d → ℝ := fun k => 1 / lengthscales k ^ 2
  let exponent : Matrix (Fin n) (Fin n) ℝ :=
    Matrix.of fun i j => ∑ k, sq_differences i j k * inv_sq_lengthscales k
  let exponentiated : Matrix (Fin n) (Fin n) ℝ :=
    Matrix.of fun i j => Real.exp (-0.5 * exponent i j)
  let kern : Matrix (Fin n) (Fin n) ℝ :=
    Matrix.of fun i j =>
      alpha ^ 2 * exponentiated i j + if i = j then jitter else 0
  let alpha_grad : Matrix (Fin n) (Fin n) ℝ :=
    Matrix.of fun i j => 2 * alpha * exponentiated i j
  let lengthscale_grads : Fin n → Fin n → Fin d → ℝ :=
    fun i j k =>
      alpha ^ 2 * exponentiated i j * sq_differences i j k / lengthscales k ^ 3
  (kern, lengthscale_grads, alpha_grad)

/-- Error class of an aborted NumPy/Python call. -/
inductive PyError where
  | assertionError
  | valueError
  deriving DecidableEq, Repr

/-- Shape-level control flow of `ard_rbf_kernel`: the two `assert`
statements (`x1.shape[1] == x2.shape[1]`, then
`lengthscales.shape[0] == x1.shape[1]`), then the body reaches
`np.diag_indices_from(kern)` on the `n1 × n2` matrix `kern`, which raises
`ValueError` unless all dimensions are equal.  Arguments are the shapes of
`x1` (`n1 × d1`), `x2` (`n2 × d2`) and the length `dl` of `lengthscales`. -/
def ard_rbf_kernel_shape_check (n1 d1 n2 d2 dl : ℕ) : Except PyError Unit :=
  if ¬ d1 = d2 then .error .assertionError
  else if ¬ dl = d1 then .error .assertionError
  else if ¬ n1 = n2 then .error .valueError
  else .ok ()

end Kernels

/-! ## jax_kernels.py (diag_only = False paths) -/

namespace JaxKernels

/-- `compute_weighted_square_distances(x1, x2, lengthscales)`. -/
noncomputable def compute_weighted_square_distances {n1 n2 d : ℕ}
    (x1 : Matrix (Fin n1) (Fin d) ℝ) (x2 : Matrix (Fin n2) (Fin d) ℝ)
    (lengthscales : Fin d → ℝ) : Matrix (Fin n1) (Fin n2) ℝ :=
  let z1 : Matrix (Fin n1) (Fin d) ℝ :=
    Matrix.of fun i k => x1 i k / lengthscales k
  let z2 : Matrix (Fin n2) (Fin d) ℝ :=
    Matrix.of fun j k => x2 j k / lengthscales k
  let cross_contrib : Matrix (Fin n1) (Fin n2) ℝ :=
    Matrix.of fun i j => -2 * ∑ k, z1 i k * z2 j k
  let z1_sq : Fin n1 → ℝ := fun i => ∑ k, z1 i k ^ 2
  let z2_sq : Fin n2 → ℝ := fun j => ∑ k, z2 j k ^ 2
  let combined : Matrix (Fin n1) (Fin n2) ℝ :=
    Matrix.of fun i j => z1_sq i + cross_contrib i j + z2_sq j
  Matrix.of fun i j => max (combined i j) 0

/-- `add_jitter(kern, jitter, diag_only=False)`: `index_add` of `jitter` at
`jnp.diag_indices(min(kern.shape[0], kern.shape[1]))`. -/
noncomputable def add_jitter {n1 n2 : ℕ} (kern : Matrix (Fin n1) (Fin n2) ℝ)
    (jitter : ℝ) : Matrix (Fin n1) (Fin n2) ℝ :=
  Matrix.of fun i j =>
    kern i j +
      if (i : ℕ) = (j : ℕ) ∧ (i : ℕ) < min n1 n2 then jitter else 0

/-- `ard_rbf_kernel(x1, x2, lengthscales, alpha, diag_only=False, jitter)`
from `jax_kernels.py`. -/
noncomputable def ard_rbf_kernel {n1 n2 d : ℕ} (x1 : Matrix (Fin n1) (Fin d) ℝ)
    (x2 : Matrix (Fin n2) (Fin d) ℝ) (lengthscales : Fin d → ℝ)
    (alpha jitter : ℝ) : Matrix (Fin n1) (Fin n2) ℝ :=
  let r_sq := compute_weighted_square_distances x1 x2 lengthscales
  let kernel : Matrix (Fin n1) (Fin n2) ℝ :=
    Matrix.of fun i j => alpha ^ 2 * Real.exp (-0.5 * r_sq i j)
  add_jitter kernel jitter

end JaxKernels

/-- The spec's claimed entry formula for the ARD RBF kernel:
`alpha^2 * exp(-1/2 * Σ_d (x1[i,d] - x2[j,d])^2 / lengthscales[d]^2)`.
Written from the spec's words, for comparison with the code. -/
noncomputable def ard_rbf_entry_spec {n1 n2 d : ℕ}
    (x1 : Matrix (Fin n1) (Fin d) ℝ) (x2 : Matrix (Fin n2) (Fin d) ℝ)
    (lengthscales : Fin d → ℝ) (alpha : ℝ) (i : Fin n1) (j : Fin n2) : ℝ :=
  alpha ^ 2 *
    Real.exp (-(1 / 2) * ∑ k, (x1 i k - x2 j k) ^ 2 / lengthscales k ^ 2)

theorem ard_kern_entry_eq {n d : ℕ} (x1 x2 : Matrix (Fin n) (Fin d) ℝ)
    (ls : Fin d → ℝ) (alpha jitter : ℝ) (i j : Fin n) :
    (Kernels.ard_rbf_kernel x1 x2 ls alpha jitter).1 i j =
      ard_rbf_entry_spec x1 x2 ls alpha i j + if i = j then jitter else 0 := by
  simp only [Kernels.ard_rbf_kernel, ard_rbf_entry_spec, Matrix.of_apply]
  have hs : ∀ k : Fin d, (x1 i k - x2 j k) ^ 2 * (1 / ls k ^ 2) =
      (x1 i k - x2 j k) ^ 2 / ls k ^ 2 := fun k => mul_one_div _ _
  rw [Finset.sum_congr rfl fun k _ => hs k]
  norm_num

theorem jax_ard_entry_eq {n1 n2 d : ℕ} (y1 : Matrix (Fin n1) (Fin d) ℝ)
    (y2 : Matrix (Fin n2) (Fin d) ℝ) (ls : Fin d → ℝ) (alpha jitter : ℝ)
    (a : Fin n1) (b : Fin n2) :
    JaxKernels.ard_rbf_kernel y1 y2 ls alpha jitter a b =
      ard_rbf_entry_spec y1 y2 ls alpha a b +
        if (a : ℕ) = (b : ℕ) then jitter else 0 := by
  have hterm : ∀ k : Fin d, (y1 a k - y2 b k) ^ 2 / ls k ^ 2 =
      (y1 a k / ls k) ^ 2 - 2 * ((y1 a k / ls k) * (y2 b k / ls k)) +
        (y2 b k / ls k) ^ 2 := by
    intro k
    rw [← div_pow, ← div_sub_div_same]
    ring
  have hsum : (∑ k, (y1 a k / ls k) ^ 2) +
        -2 * (∑ k, (y1 a k / ls k) * (y2 b k / ls k)) +
        (∑ k, (y2 b k / ls k) ^ 2) =
      ∑ k, (y1 a k - y2 b k) ^ 2 / ls k ^ 2 := by
    rw [Finset.sum_congr rfl fun k _ => hterm k]
    rw [Finset.sum_add_distrib, Finset.sum_sub_distrib, ← Finset.mul_sum]
    ring
  have hnonneg : (0 : ℝ) ≤ ∑ k, (y1 a k - y2 b k) ^ 2 / ls k ^ 2 :=
    Finset.sum_nonneg fun k _ => div_nonneg (sq_nonneg _) (sq_nonneg _)
  have hite : (if (a : ℕ) = (b : ℕ) ∧ (a : ℕ) < min n1 n2 then jitter else 0) =
      if (a : ℕ) = (b : ℕ) then jitter else 0 := by
    refine if_congr ⟨fun h => h.1, fun h => ⟨h, lt_min a.isLt ?_⟩⟩ rfl rfl
    rw [h]; exact b.isLt
  simp only [JaxKernels.ard_rbf_kernel,
    JaxKernels.compute_weighted_square_distances, JaxKernels.add_jitter,
    ard_rbf_entry_spec, Matrix.of_apply]
  rw [hsum, max_eq_left hnonneg, hite]
  norm_num

/-- C3 as frozen is false at a concrete input: with `x1 = x2 = [[0]]`,
`lengthscales = [1]`, `alpha = 1`, `jitter = 1`, the returned kernel's
diagonal entry is `1 * exp(0) + 1 = 2`, not the claimed
`alpha^2 * exp(-1/2 * 0) = 1`: the code adds `jitter` to the diagonal. -/
theorem C3_counterexample :
    (Kernels.ard_rbf_kernel (Matrix.of fun (_ : Fin 1) (_ : Fin 1) => (0 : ℝ))
        (Matrix.of fun _ _ => (0 : ℝ)) (fun _ => 1) 1 1).1 0 0 ≠
      ard_rbf_entry_spec (Matrix.of fun (_ : Fin 1) (_ : Fin 1) => (0 : ℝ))
        (Matrix.of fun (_ : Fin 1) (_ : Fin 1) => (0 : ℝ)) (fun _ => 1) 1 0 0 := by
  rw [ard_kern_entry_eq]
  have : ard_rbf_entry_spec
      (Matrix.of fun (_ : Fin 1) (_ : Fin 1) => (0 : ℝ))
      (Matrix.of fun (_ : Fin 1) (_ : Fin 1) => (0 : ℝ)) (fun _ => 1) 1 0 0 = 1 := by
    simp [ard_rbf_entry_spec]
  rw [this]
  norm_num

/-- C3 amended: every off-diagonal entry of the NumPy `ard_rbf_kernel`
equals `alpha^2 * exp(-1/2 * Σ_d (x1[i,d]-x2[j,d])^2 / lengthscales[d]^2)`,
while each diagonal entry equals that formula plus the jitter; the JAX
`ard_rbf_kernel` likewise equals the formula plus jitter exactly on its main
diagonal. -/
theorem C3_amended_ard_rbf_entries {n d n1 n2 : ℕ}
    (x1 x2 : Matrix (Fin n) (Fin d) ℝ)
    (y1 : Matrix (Fin n1) (Fin d) ℝ) (y2 : Matrix (Fin n2) (Fin d) ℝ)
    (ls : Fin d → ℝ) (alpha jitter : ℝ) (i j : Fin n) (a : Fin n1)
    (b : Fin n2) :
    (i ≠ j → (Kernels.ard_rbf_kernel x1 x2 ls alpha jitter).1 i j =
      ard_rbf_entry_spec x1 x2 ls alpha i j) ∧
    (Kernels.ard_rbf_kernel x1 x2 ls alpha jitter).1 i i =
      ard_rbf_entry_spec x1 x2 ls alpha i i + jitter ∧
    JaxKernels.ard_rbf_kernel y1 y2 ls alpha jitter a b =
      ard_rbf_entry_spec y1 y2 ls alpha a b +
        if (a : ℕ) = (b : ℕ) then jitter else 0 := by
  refine ⟨fun hij => ?_, ?_, jax_ard_entry_eq y1 y2 ls alpha jitter a b⟩
  · rw [ard_kern_entry_eq, if_neg hij, add_zero]
  · rw [ard_kern_entry_eq, if_pos rfl]

/-- Witness for C3's amended statement at a concrete input. -/
theorem C3_amended_witness :
    ((0 : Fin 2) ≠ 1 ∧
      (Kernels.ard_rbf_kernel
          (Matrix.of fun (_ : Fin 2) (_ : Fin 1) => (0 : ℝ))
          (Matrix.of fun _ _ => (0 : ℝ)) (fun _ => 1) 1 1).1 0 1 =
        ard_rbf_entry_spec (Matrix.of fun (_ : Fin 2) (_ : Fin 1) => (0 : ℝ))
          (Matrix.of fun (_ : Fin 2) (_ : Fin 1) => (0 : ℝ)) (fun _ => 1) 1 0 1) ∧
    (Kernels.ard_rbf_kernel (Matrix.of fun (_ : Fin 2) (_ : Fin 1) => (0 : ℝ))
        (Matrix.of fun _ _ => (0 : ℝ)) (fun _ => 1) 1 1).1 0 0 =
      ard_rbf_entry_spec (Matrix.of fun (_ : Fin 2) (_ : Fin 1) => (0 : ℝ))
        (Matrix.of fun (_ : Fin 2) (_ : Fin 1) => (0 : ℝ)) (fun _ => 1) 1 0 0 + 1 :=
  ⟨⟨by decide,
    (C3_amended_ard_rbf_entries _ _
      (Matrix.of fun (_ : Fin 2) (_ : Fin 1) => (0 : ℝ))
      (Matrix.of fun _ _ => (0 : ℝ)) _ 1 1 0 1 0 (0 : Fin 2)).1 (by decide)⟩,
    (C3_amended_ard_rbf_entries _ _
      (Matrix.of fun (_ : Fin 2) (_ : Fin 1) => (0 : ℝ))
      (Matrix.of fun _ _ => (0 : ℝ)) _ 1 1 0 1 0 (0 : Fin 2)).2.1⟩

/-- C8: Kernel symmetry: `rbf_kernel_1d(x, x, alpha, rho)` is symmetric, and
the kernel matrix returned by `ard_rbf_kernel(x, x, lengthscales, alpha,
jitter)` is symmetric, including its jittered diagonal. -/
theorem C8_kernel_symmetry {n d : ℕ} (x1 : Fin n → ℝ)
    (x : Matrix (Fin n) (Fin d) ℝ) (ls : Fin d → ℝ) (alpha rho jitter : ℝ)
    (i j : Fin n) :
    Kernels.rbf_kernel_1d x1 x1 alpha rho i j =
      Kernels.rbf_kernel_1d x1 x1 alpha rho j i ∧
    (Kernels.ard_rbf_kernel x x ls alpha jitter).1 i j =
      (Kernels.ard_rbf_kernel x x ls alpha jitter).1 j i := by
  constructor
  · simp only [Kernels.rbf_kernel_1d, Matrix.of_apply]
    rw [show (x1 i - x1 j) ^ 2 = (x1 j - x1 i) ^ 2 by ring]
  · rw [ard_kern_entry_eq, ard_kern_entry_eq]
    have hs : (∑ k, (x i k - x j k) ^ 2 / ls k ^ 2) =
        ∑ k, (x j k - x i k) ^ 2 / ls k ^ 2 :=
      Finset.sum_congr rfl fun k _ => by ring
    have hite : (if i = j then jitter else 0) = if j = i then jitter else 0 :=
      if_congr eq_comm rfl rfl
    rw [ard_rbf_entry_spec, ard_rbf_entry_spec, hs, hite]

/-- C6 as frozen is false at a concrete input: for `x1` of shape 2 × 1,
`x2` of shape 1 × 1 and a length-1 `lengthscales`, the shape conditions of
the claim hold and no assertion fails, yet no result is returned:
`np.diag_indices_from` raises `ValueError` on the non-square kernel. -/
theorem C6_counterexample :
    ((1 : ℕ) = 1 ∧ (1 : ℕ) = 1) ∧
    Kernels.ard_rbf_kernel_shape_check 2 1 1 1 1 ≠
      .error .assertionError ∧
    Kernels.ard_rbf_kernel_shape_check 2 1 1 1 1 ≠ .ok () := by
  have h : Kernels.ard_rbf_kernel_shape_check 2 1 1 1 1 =
      .error .valueError := rfl
  refine ⟨⟨rfl, rfl⟩, ?_, ?_⟩ <;> rw [h] <;> intro hc
  · exact Kernels.PyError.noConfusion (Except.error.inj hc)
  · exact Except.noConfusion hc

/-- C6 amended: `ard_rbf_kernel` fails with an assertion error iff the two
inputs differ in column count or the lengthscale length differs from that
column count; when those conditions hold it returns a result iff the inputs
also have equally many rows, and with differing row counts it instead fails
with the library's `ValueError`. -/
theorem C6_amended_ard_shape_check (n1 d1 n2 d2 dl : ℕ) :
    (Kernels.ard_rbf_kernel_shape_check n1 d1 n2 d2 dl =
        .error .assertionError ↔ ¬ d1 = d2 ∨ ¬ dl = d1) ∧
    (Kernels.ard_rbf_kernel_shape_check n1 d1 n2 d2 dl = .ok () ↔
      d1 = d2 ∧ dl = d1 ∧ n1 = n2) ∧
    (Kernels.ard_rbf_kernel_shape_check n1 d1 n2 d2 dl =
        .error .valueError ↔ d1 = d2 ∧ dl = d1 ∧ ¬ n1 = n2) := by
  unfold Kernels.ard_rbf_kernel_shape_check
  split_ifs with h1 h2 h3 <;> simp_all

/-! ## lin_alg.py -/

namespace LinAlg

/-- `num_triangular_elts(mat_size, include_diagonal=True)`. -/
def num_triangular_elts (mat_size : ℕ) (include_diagonal : Bool) : ℕ :=
  if include_diagonal then mat_size * (mat_size + 1) / 2
  else mat_size * (mat_size - 1) / 2

/-- The positions listed by `np.tril_indices(n)`, in their row-major
order: `(0,0), (1,0), (1,1), (2,0), ...`. -/
def tril_pairs (n : ℕ) : List (ℕ × ℕ) :=
  (List.range n).flatMap fun i => (List.range (i + 1)).map fun j => (i, j)

/-- Number of lower-triangular positions strictly before row `i`, which is
also the flat index of position `(i, 0)` in `tril_pairs`. -/
def tri (i : ℕ) : ℕ := i * (i + 1) / 2

/-- `L = np.zeros((n, n)); L[np.tril_indices(n)] = vec` as an ℕ-indexed
function: the row-major fill order puts `vec[tri i + j]` at `(i, j)` for
`j ≤ i < n`, and zeros elsewhere. -/
def tril_from_vec (vec : List ℝ) (n : ℕ) : ℕ → ℕ → ℝ :=
  fun i j => if i < n ∧ j ≤ i then vec.getD (tri i + j) 0 else 0

/-- `pos_def_mat_from_vector(vec, target_size, jitter=0)`:
`np.matmul(L, L.T) + np.eye(target_size) * jitter` for the filled
lower-triangular `L`. -/
def pos_def_mat_from_vector (vec : List ℝ) (target_size : ℕ) (jitter : ℝ) :
    Matrix (Fin target_size) (Fin target_size) ℝ :=
  let L : Matrix (Fin target_size) (Fin target_size) ℝ :=
    Matrix.of fun i j => tril_from_vec vec target_size (i : ℕ) (j : ℕ)
  L * L.transpose + jitter • (1 : Matrix (Fin target_size) (Fin target_size) ℝ)

/-- Entry `(i, j)` of the lower-triangular Cholesky factor computed by
`np.linalg.cholesky`, as the standard recursive algorithm in exact
arithmetic over an ℕ-indexed input. -/
noncomputable def chol_entry (A : ℕ → ℕ → ℝ) (i j : ℕ) : ℝ :=
  if h1 : i < j then 0
  else if h2 : i = j then
    Real.sqrt (A i i - ∑ k in (Finset.range i).attach, chol_entry A i k.1 ^ 2)
  else
    (A i j - ∑ k in (Finset.range j).attach,
        chol_entry A i k.1 * chol_entry A j k.1) / chol_entry A j j
termination_by (j, i)
decreasing_by
  · have hk := Finset.mem_range.mp k.2
    exact Prod.Lex.left _ _ (by omega)
  · exact Prod.Lex.left _ _ (Finset.mem_range.mp k.2)
  · exact Prod.Lex.left _ _ (Finset.mem_range.mp k.2)
  · exact Prod.Lex.right _ (by omega)

/-- An `n × n` real matrix padded to an ℕ-indexed function with zeros. -/
def pad {n : ℕ} (M : Matrix (Fin n) (Fin n) ℝ) : ℕ → ℕ → ℝ :=
  fun i j => if h : i < n ∧ j < n then M ⟨i, h.1⟩ ⟨j, h.2⟩ else 0

/-- `vector_from_pos_def_mat(pos_def_mat, jitter=0)`.  The first statement,
`pos_def_mat -= np.eye(n) * jitter`, mutates the caller's array in place, so
the embedding returns both the packed Cholesky factor (the function's return
value, `L[np.tril_indices_from(L)]`) and the final value of the argument
array. -/
noncomputable def vector_from_pos_def_mat {n : ℕ}
    (pos_def_mat : Matrix (Fin n) (Fin n) ℝ) (jitter : ℝ) :
    List ℝ × Matrix (Fin n) (Fin n) ℝ :=
  let subtracted :=
    pos_def_mat - jitter • (1 : Matrix (Fin n) (Fin n) ℝ)
  let L := chol_entry (pad subtracted)
  ((tril_pairs n).map fun p => L p.1 p.2, subtracted)

/-- `generate_random_pos_def(n, jitter=10**-4)`: draws an `n × n` matrix of
standard normals from the global NumPy RNG and returns
`elements @ elements.T + np.eye(n) * jitter`.  The hidden global RNG state
is modelled as the stream of pending draws (`np.random.randn(n, n)` consumes
the first `n*n` of them, row-major, and leaves the rest); the embedding
returns the result and the RNG state after the call. -/
def generate_random_pos_def (n : ℕ) (jitter : ℝ) (rng : ℕ → ℝ) :
    Matrix (Fin n) (Fin n) ℝ × (ℕ → ℝ) :=
  let elements : Matrix (Fin n) (Fin n) ℝ :=
    Matrix.of fun i j => rng ((i : ℕ) * n + (j : ℕ))
  (elements * elements.transpose + jitter • (1 : Matrix (Fin n) (Fin n) ℝ),
    fun k => rng (k + n * n))

end LinAlg

theorem chol_entry_upper (A : ℕ → ℕ → ℝ) {i j : ℕ} (h : i < j) :
    LinAlg.chol_entry A i j = 0 := by
  rw [LinAlg.chol_entry, dif_pos h]

theorem chol_entry_diag (A : ℕ → ℕ → ℝ) (i : ℕ) :
    LinAlg.chol_entry A i i =
      Real.sqrt (A i i - ∑ k in Finset.range i, LinAlg.chol_entry A i k ^ 2) := by
  rw [LinAlg.chol_entry, dif_neg (lt_irrefl i), dif_pos rfl,
    Finset.sum_attach (Finset.range i) (fun k => LinAlg.chol_entry A i k ^ 2)]

theorem chol_entry_lower (A : ℕ → ℕ → ℝ) {i j : ℕ} (h : j < i) :
    LinAlg.chol_entry A i j =
      (A i j - ∑ k in Finset.range j,
          LinAlg.chol_entry A i k * LinAlg.chol_entry A j k) /
        LinAlg.chol_entry A j j := by
  rw [LinAlg.chol_entry, dif_neg (Nat.lt_asymm h), dif_neg (Nat.ne_of_gt h),
    Finset.sum_attach (Finset.range j)
      (fun k => LinAlg.chol_entry A i k * LinAlg.chol_entry A j k)]

/-- Uniqueness of the Cholesky factorisation along the algorithm: if `A`
agrees on its top-left `n × n` block with `B * Bᵀ` for a lower-triangular
`B` with positive diagonal, then the computed factor agrees with `B` there. -/
theorem chol_entry_of_LLT {n : ℕ} (A B : ℕ → ℕ → ℝ)
    (hA : ∀ i j, i < n → j < n →
      A i j = ∑ k in Finset.range n, B i k * B j k)
    (htri : ∀ i j, i < j → B i j = 0)
    (hpos : ∀ j, j < n → 0 < B j j) :
    ∀ j, ∀ i, j ≤ i → i < n → LinAlg.chol_entry A i j = B i j := by
  intro j
  induction j using Nat.strong_induction_on with
  | _ j ih =>
    have hsplit : ∀ i, i < n → j < n →
        (∑ k in Finset.range n, B i k * B j k) =
          (∑ k in Finset.range j, B i k * B j k) + B i j * B j j := by
      intro i hin hjn
      rw [← Finset.sum_range_succ]
      symm
      apply Finset.sum_subset (Finset.range_subset.mpr hjn)
      intro k _ hk
      rw [htri j k (by simpa using hk), mul_zero]
    have hdiag : j < n → LinAlg.chol_entry A j j = B j j := by
      intro hjn
      rw [chol_entry_diag]
      have hsum : (∑ k in Finset.range j, LinAlg.chol_entry A j k ^ 2) =
          ∑ k in Finset.range j, B j k ^ 2 :=
        Finset.sum_congr rfl fun k hk => by
          have hkj := Finset.mem_range.mp hk
          rw [ih k hkj j hkj.le hjn]
      rw [hsum, hA j j hjn hjn, hsplit j hjn hjn]
      have hx : (∑ k in Finset.range j, B j k * B j k) =
          ∑ k in Finset.range j, B j k ^ 2 :=
        Finset.sum_congr rfl fun k _ => (pow_two (B j k)).symm
      rw [hx, add_sub_cancel_left, ← pow_two,
        Real.sqrt_sq (hpos j hjn).le]
    intro i hji hin
    rcases eq_or_lt_of_le hji with heq | hlt
    · cases heq
      exact hdiag hin
    · have hjn : j < n := lt_trans hlt hin
      rw [chol_entry_lower A hlt]
      have hsum : (∑ k in Finset.range j,
          LinAlg.chol_entry A i k * LinAlg.chol_entry A j k) =
          ∑ k in Finset.range j, B i k * B j k :=
        Finset.sum_congr rfl fun k hk => by
          have hkj := Finset.mem_range.mp hk
          rw [ih k hkj i (hkj.le.trans hji) hin, ih k hkj j hkj.le hjn]
      rw [hsum, hdiag hjn, hA i j hin hjn, hsplit i hin hjn,
        add_sub_cancel_left]
      exact mul_div_cancel_right₀ _ (hpos j hjn).ne'

theorem tri_succ (i : ℕ) : LinAlg.tri (i + 1) = LinAlg.tri i + (i + 1) := by
  unfold LinAlg.tri
  have h : (i + 1) * (i + 1 + 1) = i * (i + 1) + 2 * (i + 1) := by ring
  rw [h, Nat.add_mul_div_left _ _ (by norm_num : (0 : ℕ) < 2)]

theorem tri_eq_num_triangular_elts (n : ℕ) :
    LinAlg.tri n = LinAlg.num_triangular_elts n true := rfl

theorem tril_pairs_mem {n : ℕ} {p : ℕ × ℕ} (hp : p ∈ LinAlg.tril_pairs n) :
    p.2 ≤ p.1 ∧ p.1 < n := by
  simp only [LinAlg.tril_pairs, List.mem_flatMap, List.mem_map,
    List.mem_range] at hp
  obtain ⟨i, hi, j, hj, rfl⟩ := hp
  exact ⟨Nat.lt_succ_iff.mp hj, hi⟩

theorem tril_pairs_map_tri (n : ℕ) :
    (LinAlg.tril_pairs n).map (fun p => LinAlg.tri p.1 + p.2) =
      List.range (LinAlg.tri n) := by
  induction n with
  | zero => rfl
  | succ n ihn =>
    have hstep : LinAlg.tril_pairs (n + 1) =
        LinAlg.tril_pairs n ++ (List.range (n + 1)).map fun j => (n, j) := by
      conv_lhs => rw [show LinAlg.tril_pairs (n + 1) =
          (List.range (n + 1)).flatMap
            (fun i => (List.range (i + 1)).map fun j => (i, j)) from rfl,
        List.range_succ]
      rw [List.flatMap_append, List.flatMap_cons, List.flatMap_nil,
        List.append_nil]
      rfl
    have hadd := List.range_add (LinAlg.tri n) (n + 1)
    rw [hstep, List.map_append, ihn, List.map_map, tri_succ, hadd]
    rfl

theorem map_getD_range (vec : List ℝ) (m : ℕ) (h : vec.length = m) :
    (List.range m).map (fun k => vec.getD k 0) = vec := by
  apply List.ext_getElem
  · simp [h]
  · intro i h1 h2
    simp only [List.getElem_map, List.getElem_range]
    exact List.getD_eq_getElem vec 0 (by simpa using h2)

theorem vector_from_pos_def_mat_fst {n : ℕ} (M : Matrix (Fin n) (Fin n) ℝ)
    (jitter : ℝ) :
    (LinAlg.vector_from_pos_def_mat M jitter).1 =
      (LinAlg.tril_pairs n).map fun p =>
        LinAlg.chol_entry
          (LinAlg.pad (M - jitter • (1 : Matrix (Fin n) (Fin n) ℝ)))
          p.1 p.2 := rfl

theorem vector_from_pos_def_mat_snd {n : ℕ} (M : Matrix (Fin n) (Fin n) ℝ)
    (jitter : ℝ) :
    (LinAlg.vector_from_pos_def_mat M jitter).2 =
      M - jitter • (1 : Matrix (Fin n) (Fin n) ℝ) := rfl

theorem pos_def_mat_from_vector_eq (vec : List ℝ) (n : ℕ) (jitter : ℝ) :
    LinAlg.pos_def_mat_from_vector vec n jitter =
      (Matrix.of fun i j : Fin n =>
          LinAlg.tril_from_vec vec n (i : ℕ) (j : ℕ)) *
        (Matrix.of fun i j : Fin n =>
          LinAlg.tril_from_vec vec n (i : ℕ) (j : ℕ)).transpose +
      jitter • (1 : Matrix (Fin n) (Fin n) ℝ) := rfl

/-- C10: Round-trip of the positive-definite parameterization: for every
`n`, every `jitter ≥ 0` and every vector of length `num_triangular_elts n`
whose induced lower-triangular matrix has strictly positive diagonal,
`vector_from_pos_def_mat (pos_def_mat_from_vector vec n jitter) jitter`
returns `vec` in exact arithmetic. -/
theorem C10_pos_def_vector_roundtrip (n : ℕ) (vec : List ℝ) (jitter : ℝ)
    (hlen : vec.length = LinAlg.num_triangular_elts n true)
    (hpos : ∀ i, i < n → 0 < vec.getD (LinAlg.tri i + i) 0)
    (hj : 0 ≤ jitter) :
    (LinAlg.vector_from_pos_def_mat
        (LinAlg.pos_def_mat_from_vector vec n jitter) jitter).1 = vec := by
  set B : ℕ → ℕ → ℝ := LinAlg.tril_from_vec vec n with hB
  set A : ℕ → ℕ → ℝ :=
    LinAlg.pad (LinAlg.pos_def_mat_from_vector vec n jitter -
      jitter • (1 : Matrix (Fin n) (Fin n) ℝ)) with hA
  have hMsub : LinAlg.pos_def_mat_from_vector vec n jitter -
      jitter • (1 : Matrix (Fin n) (Fin n) ℝ) =
      (Matrix.of fun i j : Fin n => B (i : ℕ) (j : ℕ)) *
        (Matrix.of fun i j : Fin n => B (i : ℕ) (j : ℕ)).transpose := by
    rw [pos_def_mat_from_vector_eq]
    exact add_sub_cancel_right _ _
  have hAval : ∀ i j : ℕ, i < n → j < n →
      A i j = ∑ k in Finset.range n, B i k * B j k := by
    intro i j hi hj'
    rw [hA, LinAlg.pad, dif_pos (⟨hi, hj'⟩ : i < n ∧ j < n), hMsub]
    simp only [Matrix.mul_apply, Matrix.transpose_apply, Matrix.of_apply]
    exact Fin.sum_univ_eq_sum_range (fun k => B i k * B j k) n
  have htri : ∀ i j : ℕ, i < j → B i j = 0 := by
    intro i j hij
    rw [hB, LinAlg.tril_from_vec, if_neg]
    rintro ⟨-, hji⟩
    omega
  have hposB : ∀ j, j < n → 0 < B j j := by
    intro j hjn
    rw [hB, LinAlg.tril_from_vec, if_pos ⟨hjn, le_refl j⟩]
    exact hpos j hjn
  have hchol := chol_entry_of_LLT A B hAval htri hposB
  rw [vector_from_pos_def_mat_fst]
  have hmap1 : ((LinAlg.tril_pairs n).map fun p =>
      LinAlg.chol_entry A p.1 p.2) =
      (LinAlg.tril_pairs n).map fun p => vec.getD (LinAlg.tri p.1 + p.2) 0 := by
    apply List.map_congr_left
    intro p hp
    obtain ⟨hle, hlt⟩ := tril_pairs_mem hp
    rw [hchol p.2 p.1 hle hlt, hB, LinAlg.tril_from_vec, if_pos ⟨hlt, hle⟩]
  have hmm : (((LinAlg.tril_pairs n).map fun p =>
      LinAlg.tri p.1 + p.2).map fun k => vec.getD k 0) =
      (LinAlg.tril_pairs n).map fun p => vec.getD (LinAlg.tri p.1 + p.2) 0 := by
    rw [List.map_map]
    rfl
  rw [← hA, hmap1, ← hmm, tril_pairs_map_tri]
  exact map_getD_range vec _ (by rw [hlen, ← tri_eq_num_triangular_elts])

/-- Witness for C10 at `n = 1`, `vec = [1]`, `jitter = 0`. -/
theorem C10_pos_def_vector_roundtrip_witness :
    (([(1 : ℝ)].length = LinAlg.num_triangular_elts 1 true) ∧
      (∀ i, i < 1 → 0 < [(1 : ℝ)].getD (LinAlg.tri i + i) 0) ∧
      (0 : ℝ) ≤ 0) ∧
    (LinAlg.vector_from_pos_def_mat
        (LinAlg.pos_def_mat_from_vector [(1 : ℝ)] 1 0) 0).1 = [(1 : ℝ)] :=
  ⟨⟨by decide, fun i hi => by interval_cases i ; norm_num [LinAlg.tri],
      le_refl 0⟩,
    C10_pos_def_vector_roundtrip 1 [(1 : ℝ)] 0 (by decide)
      (fun i hi => by interval_cases i ; norm_num [LinAlg.tri])
      (le_refl 0)⟩

/-- C2 as frozen is false at a concrete input: `vector_from_pos_def_mat`
executes `pos_def_mat -= np.eye(n) * jitter`, which mutates the caller's
array in place; after `vector_from_pos_def_mat([[2]], jitter=1)` the
argument array holds `[[1]]`, not its original value `[[2]]`. -/
theorem C2_counterexample :
    (LinAlg.vector_from_pos_def_mat
        (Matrix.of fun (_ : Fin 1) (_ : Fin 1) => (2 : ℝ)) 1).2 ≠
      Matrix.of fun (_ : Fin 1) (_ : Fin 1) => (2 : ℝ) := by
  rw [vector_from_pos_def_mat_snd]
  intro h
  have h00 := congrFun (congrFun h 0) 0
  simp only [Matrix.sub_apply, Matrix.smul_apply, Matrix.one_apply_eq,
    Matrix.of_apply, smul_eq_mul, mul_one] at h00
  norm_num at h00

/-- C2 amended: the array argument of `vector_from_pos_def_mat` is mutated
in place to `pos_def_mat - jitter * I`; it is left unchanged exactly when
`jitter = 0` (for a non-empty matrix).  The function's other behaviour, and
the remaining cited function `ard_rbf_kernel`, build fresh arrays and leave
their arguments untouched. -/
theorem C2_amended_vector_from_pos_def_mat_mutates {n : ℕ}
    (M : Matrix (Fin (n + 1)) (Fin (n + 1)) ℝ) (jitter : ℝ) :
    (LinAlg.vector_from_pos_def_mat M jitter).2 =
      M - jitter • (1 : Matrix (Fin (n + 1)) (Fin (n + 1)) ℝ) ∧
    ((LinAlg.vector_from_pos_def_mat M jitter).2 = M ↔ jitter = 0) := by
  refine ⟨vector_from_pos_def_mat_snd M jitter, ?_⟩
  rw [vector_from_pos_def_mat_snd]
  constructor
  · intro h
    have h00 := congrFun (congrFun h 0) 0
    simp only [Matrix.sub_apply, Matrix.smul_apply, Matrix.one_apply_eq,
      smul_eq_mul, mul_one] at h00
    linarith
  · rintro rfl
    simp

/-- C7: Positive-definiteness after jitter: for every packed vector of the
right length and every `jitter ≥ 0`, `pos_def_mat_from_vector(vec, n,
jitter)` is symmetric and satisfies `x^T M x ≥ jitter * ‖x‖²` for every
`x`; in particular it is positive definite whenever `jitter > 0`. -/
theorem C7_pos_def_after_jitter {n : ℕ} (vec : List ℝ) (jitter : ℝ)
    (hlen : vec.length = LinAlg.num_triangular_elts n true)
    (hj : 0 ≤ jitter) :
    (LinAlg.pos_def_mat_from_vector vec n jitter).transpose =
      LinAlg.pos_def_mat_from_vector vec n jitter ∧
    (∀ x : Fin n → ℝ,
      jitter * Matrix.dotProduct x x ≤
        Matrix.dotProduct x
          ((LinAlg.pos_def_mat_from_vector vec n jitter).mulVec x)) ∧
    (0 < jitter → ∀ x : Fin n → ℝ, x ≠ 0 →
      0 < Matrix.dotProduct x
        ((LinAlg.pos_def_mat_from_vector vec n jitter).mulVec x)) := by
  set L : Matrix (Fin n) (Fin n) ℝ :=
    Matrix.of fun i j : Fin n =>
      LinAlg.tril_from_vec vec n (i : ℕ) (j : ℕ) with hL
  have hM : LinAlg.pos_def_mat_from_vector vec n jitter =
      L * L.transpose + jitter • (1 : Matrix (Fin n) (Fin n) ℝ) :=
    pos_def_mat_from_vector_eq vec n jitter
  have hquad : ∀ x : Fin n → ℝ,
      Matrix.dotProduct x
          ((LinAlg.pos_def_mat_from_vector vec n jitter).mulVec x) =
        Matrix.dotProduct (Matrix.vecMul x L) (Matrix.vecMul x L) +
          jitter * Matrix.dotProduct x x := by
    intro x
    rw [hM, Matrix.add_mulVec, Matrix.dotProduct_add]
    congr 1
    · rw [← Matrix.mulVec_mulVec, Matrix.dotProduct_mulVec,
        Matrix.mulVec_transpose]
    · rw [Matrix.smul_mulVec_assoc, Matrix.one_mulVec,
        Matrix.dotProduct_smul, smul_eq_mul]
  have hself : ∀ v : Fin n → ℝ, 0 ≤ Matrix.dotProduct v v := by
    intro v
    exact Finset.sum_nonneg fun i _ => mul_self_nonneg (v i)
  refine ⟨?_, fun x => ?_, fun hjpos x hx => ?_⟩
  · rw [hM]
    rw [Matrix.transpose_add, Matrix.transpose_mul, Matrix.transpose_transpose,
      Matrix.transpose_smul, Matrix.transpose_one]
  · rw [hquad x]
    exact le_add_of_nonneg_left (hself _)
  · rw [hquad x]
    have hxx : 0 < Matrix.dotProduct x x := by
      obtain ⟨i, hi⟩ := Function.ne_iff.mp hx
      exact Finset.sum_pos' (fun k _ => mul_self_nonneg (x k))
        ⟨i, Finset.mem_univ i, mul_self_pos.mpr (by simpa using hi)⟩
    have := mul_pos hjpos hxx
    have := hself (Matrix.vecMul x L)
    linarith

/-- Witness for C7 at `n = 1`, `vec = [1]`, `jitter = 1`, `x = (1)`. -/
theorem C7_pos_def_after_jitter_witness :
    (([(1 : ℝ)].length = LinAlg.num_triangular_elts 1 true) ∧ (0 : ℝ) ≤ 1) ∧
    (LinAlg.pos_def_mat_from_vector [(1 : ℝ)] 1 1).transpose =
      LinAlg.pos_def_mat_from_vector [(1 : ℝ)] 1 1 ∧
    1 * Matrix.dotProduct (fun _ : Fin 1 => (1 : ℝ)) (fun _ => 1) ≤
      Matrix.dotProduct (fun _ : Fin 1 => (1 : ℝ))
        ((LinAlg.pos_def_mat_from_vector [(1 : ℝ)] 1 1).mulVec fun _ => 1) ∧
    0 < Matrix.dotProduct (fun _ : Fin 1 => (1 : ℝ))
        ((LinAlg.pos_def_mat_from_vector [(1 : ℝ)] 1 1).mulVec fun _ => 1) :=
  ⟨⟨by decide, by norm_num⟩,
    (C7_pos_def_after_jitter [(1 : ℝ)] 1 (by decide) (by norm_num)).1,
    (C7_pos_def_after_jitter [(1 : ℝ)] 1 (by decide) (by norm_num)).2.1 _,
    (C7_pos_def_after_jitter [(1 : ℝ)] 1 (by decide) (by norm_num)).2.2
      (by norm_num) _ (by
        intro h
        have := congrFun h 0
        norm_num at this)⟩

/-- C9 as frozen is false: `generate_random_pos_def` reads the global NumPy
RNG, so two calls with the same arguments but different pending draws return
different results. -/
theorem C9_counterexample :
    (LinAlg.generate_random_pos_def 1 0 fun _ => 1).1 ≠
      (LinAlg.generate_random_pos_def 1 0 fun _ => 2).1 := by
  intro h
  have h00 := congrFun (congrFun h 0) 0
  simp only [LinAlg.generate_random_pos_def, Matrix.add_apply,
    Matrix.mul_apply, Matrix.transpose_apply, Matrix.of_apply,
    Matrix.smul_apply, Matrix.one_apply_eq, smul_eq_mul,
    Fin.sum_univ_one] at h00
  norm_num at h00

/-- C9 amended: `generate_random_pos_def` is deterministic only given the
hidden global RNG state: its result is a function of its arguments together
with the first `n*n` pending draws of the global NumPy RNG, and the call
advances that hidden state by `n*n` draws. -/
theorem C9_amended_generate_random_pos_def (n : ℕ) (jitter : ℝ)
    (s s' : ℕ → ℝ) (h : ∀ k, k < n * n → s k = s' k) :
    (LinAlg.generate_random_pos_def n jitter s).1 =
      (LinAlg.generate_random_pos_def n jitter s').1 ∧
    ∀ k, (LinAlg.generate_random_pos_def n jitter s).2 k = s (k + n * n) := by
  constructor
  · have hidx : ∀ i j : Fin n, (i : ℕ) * n + (j : ℕ) < n * n := by
      intro i j
      have h1 : (i : ℕ) * n + (j : ℕ) < ((i : ℕ) + 1) * n := by
        rw [Nat.succ_mul]
        exact Nat.add_lt_add_left j.isLt _
      have h2 : ((i : ℕ) + 1) * n ≤ n * n :=
        Nat.mul_le_mul_right n (Nat.succ_le_of_lt i.isLt)
      exact lt_of_lt_of_le h1 h2
    simp only [LinAlg.generate_random_pos_def]
    congr 1
    ext i j
    simp only [Matrix.mul_apply, Matrix.transpose_apply, Matrix.of_apply]
    exact Finset.sum_congr rfl fun k _ => by
      rw [h _ (hidx i k), h _ (hidx j k)]
  · intro k
    rfl

/-- Witness for C9's amended statement: two streams that agree on their
first draw produce the same `1 × 1` result. -/
theorem C9_amended_witness :
    (∀ k, k < 1 * 1 →
      (fun m : ℕ => if m = 0 then (5 : ℝ) else 0) k =
        (fun m : ℕ => if m = 0 then (5 : ℝ) else 7) k) ∧
    (LinAlg.generate_random_pos_def 1 0
        (fun m : ℕ => if m = 0 then (5 : ℝ) else 0)).1 =
      (LinAlg.generate_random_pos_def 1 0
        (fun m : ℕ => if m = 0 then (5 : ℝ) else 7)).1 :=
  ⟨fun k hk => by
      have hk0 : k = 0 := by omega
      rw [hk0]
      norm_num,
    (C9_amended_generate_random_pos_def 1 0 _ _ (fun k hk => by
      have hk0 : k = 0 := by omega
      rw [hk0]
      norm_num)).1⟩

/-! ## normals.py -/

namespace Normals

/-- `linear_regression_online_update(m_km1, P_km1, H, m_obs, var_obs)` from
`normals.py`, for the claim's scalar-observation case: `m_km1` is a `k × 1`
column vector, `H` is `1 × k`, so `S_k = H @ P_km1 @ H.T + var_obs` is
`1 × 1` (`var_obs` broadcasts onto each entry).  `K_k = P_km1 @ H.T *
(1 / S_k)` and the later `*` are NumPy elementwise broadcasts of the `1 × 1`
factors. -/
noncomputable def linear_regression_online_update {k : ℕ}
    (m_km1 : Matrix (Fin k) (Fin 1) ℝ) (P_km1 : Matrix (Fin k) (Fin k) ℝ)
    (H : Matrix (Fin 1) (Fin k) ℝ) (m_obs var_obs : ℝ) :
    Matrix (Fin k) (Fin 1) ℝ × Matrix (Fin k) (Fin k) ℝ :=
  let S_k : Matrix (Fin 1) (Fin 1) ℝ :=
    Matrix.of fun i j => (H * P_km1 * H.transpose) i j + var_obs
  let K_k : Matrix (Fin k) (Fin 1) ℝ :=
    Matrix.of fun i j => (P_km1 * H.transpose) i j * (1 / S_k 0 j)
  let m_k : Matrix (Fin k) (Fin 1) ℝ :=
    Matrix.of fun i j => m_km1 i j + K_k i j * (m_obs - (H * m_km1) 0 j)
  let P_k : Matrix (Fin k) (Fin k) ℝ :=
    P_km1 - (Matrix.of fun (i : Fin k) (j : Fin 1) => K_k i j * S_k 0 j) *
      K_k.transpose
  (m_k, P_k)

end Normals

/-! ## autograd.py -/

namespace Autograd

/-- `logdet_via_cholesky(mat)`: twice the sum of the logs of the diagonal of
`np.linalg.cholesky(mat)`. -/
noncomputable def logdet_via_cholesky {m : ℕ} (mat : Matrix (Fin m) (Fin m) ℝ) :
    ℝ :=
  2 * ∑ i : Fin m, Real.log (LinAlg.chol_entry (LinAlg.pad mat) (i : ℕ) (i : ℕ))

/-- `linear_regression_online_update` from `autograd.py`: same update as the
`normals.py` version, plus the log-marginal-likelihood contribution
`0.5 * logdet_via_cholesky(2π S_k) + 0.5 * v_k.T @ np.linalg.solve(S_k, v_k)`
(squeezed to a scalar; `np.linalg.solve` on the `1 × 1` system is the matrix
inverse applied to `v_k`). -/
noncomputable def linear_regression_online_update {k : ℕ}
    (m_km1 : Matrix (Fin k) (Fin 1) ℝ) (P_km1 : Matrix (Fin k) (Fin k) ℝ)
    (H : Matrix (Fin 1) (Fin k) ℝ) (m_obs var_obs : ℝ) :
    Matrix (Fin k) (Fin 1) ℝ × Matrix (Fin k) (Fin k) ℝ × ℝ :=
  let v_k : Matrix (Fin 1) (Fin 1) ℝ :=
    Matrix.of fun i j => m_obs - (H * m_km1) i j
  let S_k : Matrix (Fin 1) (Fin 1) ℝ :=
    Matrix.of fun i j => (H * P_km1 * H.transpose) i j + var_obs
  let K_k : Matrix (Fin k) (Fin 1) ℝ :=
    Matrix.of fun i j => (P_km1 * H.transpose) i j * (1 / S_k 0 j)
  let m_k : Matrix (Fin k) (Fin 1) ℝ :=
    Matrix.of fun i j => m_km1 i j + K_k i j * v_k 0 j
  let P_k : Matrix (Fin k) (Fin k) ℝ :=
    P_km1 - (Matrix.of fun (i : Fin k) (j : Fin 1) => K_k i j * S_k 0 j) *
      K_k.transpose
  let logdet : ℝ :=
    logdet_via_cholesky (Matrix.of fun i j => 2 * Real.pi * S_k i j)
  let quadratic_term : Matrix (Fin 1) (Fin 1) ℝ :=
    Matrix.of fun i j => 0.5 * (v_k.transpose * (S_k⁻¹ * v_k)) i j
  let energy_contrib : ℝ := 0.5 * logdet + quadratic_term 0 0
  (m_k, P_k, energy_contrib)

end Autograd

/-- The spec's closed-form Kalman update: `K = P H^T S⁻¹` with
`S = H P H^T + var_obs` as a `1 × 1` matrix, posterior mean
`m + K (m_obs - H m)` and posterior covariance `P - K S K^T`.  Written from
the claim's words, for comparison with the code. -/
noncomputable def kalman_posterior_spec {k : ℕ}
    (m_km1 : Matrix (Fin k) (Fin 1) ℝ) (P_km1 : Matrix (Fin k) (Fin k) ℝ)
    (H : Matrix (Fin 1) (Fin k) ℝ) (m_obs var_obs : ℝ) :
    Matrix (Fin k) (Fin 1) ℝ × Matrix (Fin k) (Fin k) ℝ :=
  let S : Matrix (Fin 1) (Fin 1) ℝ :=
    H * P_km1 * H.transpose + var_obs • (1 : Matrix (Fin 1) (Fin 1) ℝ)
  let K : Matrix (Fin k) (Fin 1) ℝ := P_km1 * H.transpose * S⁻¹
  (m_km1 + K * (m_obs • (1 : Matrix (Fin 1) (Fin 1) ℝ) - H * m_km1),
   P_km1 - K * S * K.transpose)

theorem kalman_S_inv {k : ℕ} (P_km1 : Matrix (Fin k) (Fin k) ℝ)
    (H : Matrix (Fin 1) (Fin k) ℝ) (var_obs : ℝ)
    (hS : (H * P_km1 * H.transpose) 0 0 + var_obs ≠ 0) :
    (H * P_km1 * H.transpose +
        var_obs • (1 : Matrix (Fin 1) (Fin 1) ℝ))⁻¹ =
      Matrix.of fun _ _ =>
        1 / ((H * P_km1 * H.transpose) 0 0 + var_obs) := by
  apply Matrix.inv_eq_right_inv
  ext i j
  have hi : i = 0 := Subsingleton.elim i 0
  have hj : j = 0 := Subsingleton.elim j 0
  subst hi
  subst hj
  have hs' := hS
  simp only [Matrix.mul_apply, Matrix.of_apply, Fin.sum_univ_one,
    Matrix.add_apply, Matrix.smul_apply, Matrix.one_apply_eq, smul_eq_mul,
    mul_one] at hs' ⊢
  rw [mul_one_div, div_self hs']

/-- C4: Kalman-update postcondition: with a `1 × k` observation matrix `H`
(scalar observation) and invertible `S = H P H^T + var_obs`,
`linear_regression_online_update` (both the `normals.py` and the
`autograd.py` version) returns the closed-form posterior mean
`m + K (m_obs - H m)` and covariance `P - K S K^T` with `K = P H^T S⁻¹`. -/
theorem C4_linear_regression_online_update {k : ℕ}
    (m_km1 : Matrix (Fin k) (Fin 1) ℝ) (P_km1 : Matrix (Fin k) (Fin k) ℝ)
    (H : Matrix (Fin 1) (Fin k) ℝ) (m_obs var_obs : ℝ)
    (hS : (H * P_km1 * H.transpose) 0 0 + var_obs ≠ 0) :
    (Normals.linear_regression_online_update m_km1 P_km1 H m_obs var_obs).1 =
      (kalman_posterior_spec m_km1 P_km1 H m_obs var_obs).1 ∧
    (Normals.linear_regression_online_update m_km1 P_km1 H m_obs var_obs).2 =
      (kalman_posterior_spec m_km1 P_km1 H m_obs var_obs).2 ∧
    (Autograd.linear_regression_online_update m_km1 P_km1 H m_obs var_obs).1 =
      (kalman_posterior_spec m_km1 P_km1 H m_obs var_obs).1 ∧
    (Autograd.linear_regression_online_update m_km1 P_km1 H m_obs
        var_obs).2.1 =
      (kalman_posterior_spec m_km1 P_km1 H m_obs var_obs).2 := by
  have hmean :
      (Normals.linear_regression_online_update m_km1 P_km1 H m_obs
        var_obs).1 =
      (kalman_posterior_spec m_km1 P_km1 H m_obs var_obs).1 := by
    show _ = m_km1 + P_km1 * H.transpose *
      (H * P_km1 * H.transpose + var_obs • (1 : Matrix (Fin 1) (Fin 1) ℝ))⁻¹ *
      (m_obs • (1 : Matrix (Fin 1) (Fin 1) ℝ) - H * m_km1)
    rw [kalman_S_inv P_km1 H var_obs hS]
    ext i j
    have hj : j = 0 := Subsingleton.elim j 0
    subst hj
    show m_km1 i 0 + (P_km1 * H.transpose) i 0 *
        (1 / ((H * P_km1 * H.transpose) 0 0 + var_obs)) *
        (m_obs - (H * m_km1) 0 0) = _
    simp only [Matrix.add_apply, Matrix.mul_apply, Matrix.sub_apply,
      Matrix.smul_apply, Matrix.one_apply_eq, Matrix.of_apply,
      Fin.sum_univ_one, smul_eq_mul, mul_one]
  have hcov :
      (Normals.linear_regression_online_update m_km1 P_km1 H m_obs
        var_obs).2 =
      (kalman_posterior_spec m_km1 P_km1 H m_obs var_obs).2 := by
    show _ = P_km1 - P_km1 * H.transpose *
      (H * P_km1 * H.transpose + var_obs • (1 : Matrix (Fin 1) (Fin 1) ℝ))⁻¹ *
      (H * P_km1 * H.transpose + var_obs • (1 : Matrix (Fin 1) (Fin 1) ℝ)) *
      (P_km1 * H.transpose *
        (H * P_km1 * H.transpose +
          var_obs • (1 : Matrix (Fin 1) (Fin 1) ℝ))⁻¹).transpose
    rw [kalman_S_inv P_km1 H var_obs hS]
    ext i j
    show P_km1 i j - _ = _
    simp only [Matrix.sub_apply, Matrix.mul_apply, Matrix.add_apply,
      Matrix.smul_apply, Matrix.one_apply_eq, Matrix.of_apply,
      Matrix.transpose_apply, Fin.sum_univ_one, smul_eq_mul, mul_one]
  exact ⟨hmean, hcov, hmean, hcov⟩

/-- Witness for C4 at `k = 1`, `m = [[0]]`, `P = [[1]]`, `H = [[1]]`,
`m_obs = 1`, `var_obs = 1` (so `S = [[2]]` is invertible). -/
theorem C4_linear_regression_online_update_witness :
    (((Matrix.of fun (_ : Fin 1) (_ : Fin 1) => (1 : ℝ)) *
        (Matrix.of fun (_ : Fin 1) (_ : Fin 1) => (1 : ℝ)) *
        (Matrix.of fun (_ : Fin 1) (_ : Fin 1) => (1 : ℝ)).transpose) 0 0 +
        (1 : ℝ) ≠ 0) ∧
    (Normals.linear_regression_online_update
        (Matrix.of fun (_ : Fin 1) (_ : Fin 1) => (0 : ℝ))
        (Matrix.of fun _ _ => (1 : ℝ))
        (Matrix.of fun _ _ => (1 : ℝ)) 1 1).1 =
      (kalman_posterior_spec
        (Matrix.of fun (_ : Fin 1) (_ : Fin 1) => (0 : ℝ))
        (Matrix.of fun _ _ => (1 : ℝ))
        (Matrix.of fun _ _ => (1 : ℝ)) 1 1).1 ∧
    (Normals.linear_regression_online_update
        (Matrix.of fun (_ : Fin 1) (_ : Fin 1) => (0 : ℝ))
        (Matrix.of fun _ _ => (1 : ℝ))
        (Matrix.of fun _ _ => (1 : ℝ)) 1 1).2 =
      (kalman_posterior_spec
        (Matrix.of fun (_ : Fin 1) (_ : Fin 1) => (0 : ℝ))
        (Matrix.of fun _ _ => (1 : ℝ))
        (Matrix.of fun _ _ => (1 : ℝ)) 1 1).2 :=
  ⟨by
    simp only [Matrix.mul_apply, Matrix.transpose_apply, Matrix.of_apply,
      Fin.sum_univ_one]
    norm_num,
   (C4_linear_regression_online_update _ _ _ 1 1 (by
      simp only [Matrix.mul_apply, Matrix.transpose_apply, Matrix.of_apply,
        Fin.sum_univ_one]
      norm_num)).1,
   (C4_linear_regression_online_update _ _ _ 1 1 (by
      simp only [Matrix.mul_apply, Matrix.transpose_apply, Matrix.of_apply,
        Fin.sum_univ_one]
      norm_num)).2.1⟩

/-- The output of `scipy.optimize.minimize`: the point `x` it settled on and
its `success` flag.  On non-convergence `minimize` returns a result object
with `success=False` rather than raising. -/
structure MinimizeResult (k : ℕ) where
  x : Fin k → ℝ
  success : Bool

/-- `fit_laplace_approximation(neg_log_posterior_fun, start_val,
optimization_method)` from `autograd.py`.  The mode search
(`scipy.optimize.minimize`) and the autodiff Hessian
(`autograd.hessian(neg_log_posterior_fun)`) are third-party libraries, so
they enter the embedding as parameters: `hess` is the Hessian function of
the negative log posterior and `result` is the optimizer's output.  The body
computes `covariance_approx = np.linalg.inv(hess(result.x))`,
`mean_approx = result.x`, and returns
`(mean_approx, covariance_approx, result.success)`. -/
noncomputable def fit_laplace_approximation {k : ℕ}
    (hess : (Fin k → ℝ) → Matrix (Fin k) (Fin k) ℝ)
    (result : MinimizeResult k) :
    (Fin k → ℝ) × Matrix (Fin k) (Fin k) ℝ × Bool :=
  (result.x, (hess result.x)⁻¹, result.success)

/-- C5: `fit_laplace_approximation` returns `(mean, covariance, success)`
where the mean is the optimizer's mode, the covariance is the inverse of the
Hessian of the negative log posterior at the returned mean (a two-sided
inverse when that Hessian is invertible), and the optimizer's convergence is
reported only through the boolean flag. -/
theorem C5_fit_laplace_approximation {k : ℕ}
    (hess : (Fin k → ℝ) → Matrix (Fin k) (Fin k) ℝ)
    (result : MinimizeResult k) (h : IsUnit (hess result.x).det) :
    (fit_laplace_approximation hess result).1 = result.x ∧
    (fit_laplace_approximation hess result).2.2 = result.success ∧
    (fit_laplace_approximation hess result).2.1 =
      (hess (fit_laplace_approximation hess result).1)⁻¹ ∧
    (fit_laplace_approximation hess result).2.1 *
      hess (fit_laplace_approximation hess result).1 = 1 ∧
    hess (fit_laplace_approximation hess result).1 *
      (fit_laplace_approximation hess result).2.1 = 1 :=
  ⟨rfl, rfl, rfl, Matrix.nonsing_inv_mul _ h, Matrix.mul_nonsing_inv _ h⟩

/-- Witness for C5 with a `1 × 1` identity Hessian. -/
theorem C5_fit_laplace_approximation_witness :
    (IsUnit ((fun _ : Fin 1 → ℝ => (1 : Matrix (Fin 1) (Fin 1) ℝ))
        (MinimizeResult.mk (fun _ => 0) true).x).det) ∧
    (fit_laplace_approximation
        (fun _ : Fin 1 → ℝ => (1 : Matrix (Fin 1) (Fin 1) ℝ))
        (MinimizeResult.mk (fun _ => 0) true)).1 = (fun _ => 0) ∧
    (fit_laplace_approximation
        (fun _ : Fin 1 → ℝ => (1 : Matrix (Fin 1) (Fin 1) ℝ))
        (MinimizeResult.mk (fun _ => 0) true)).2.2 = true :=
  ⟨by simp,
   (C5_fit_laplace_approximation _ _ (by simp)).1,
   (C5_fit_laplace_approximation _ _ (by simp)).2.1⟩

end MLTools
